import Mathlib

/-!
A shallow embedding of the vid2frame frame-ingestion pipeline
(vid2frame.py) and its storage backends (storage.py).

Frames are identified by a decode id (the integer parsed from the file
stem) and a file name.  File contents are abstracted by a type
parameter `α` together with a fallible read map `String → Option α`
(reading a frame file from the per-video temporary directory), and
image decoding is abstracted by a map `α → Option (ℕ × ℕ)` returning
the decoded (width, height) for valid image bytes and `none` for bytes
that fail to decode.  Stores are association lists from key strings to
stored blobs.  Exact rational arithmetic stands in for the floating
point arithmetic of `np.linspace` and of the duplicate threshold; the
concrete values appearing in the claims are far from the points where
float64 and exact arithmetic could disagree.
-/

/-! ### Frame keys: `f"{video_key}/{ith_frame:08d}"` -/

/-- Decimal representation of a natural number, most significant digit
first, as produced by Python decimal formatting. -/
def decimalChars (n : ℕ) : List Char :=
  if n = 0 then ['0'] else (Nat.digits 10 n).reverse.map Nat.digitChar

/-- Left zero-padding to width 8: the Python format spec `08d`. -/
def pad8 (s : List Char) : List Char :=
  List.replicate (8 - s.length) '0' ++ s

/-- The Frame Key of storage.py lines 52 and 87: `f"{video_key}/{ith_frame:08d}"`. -/
def frameKey (video_key : String) (ith_frame : ℕ) : String :=
  ⟨video_key.data ++ '/' :: pad8 (decimalChars ith_frame)⟩

/-- The file name written by `FileStorage.put` (storage.py line 154), taken
relative to the storage root: `"{video_key}/{ith_frame:08d}.jpg"`. -/
def fileKey (video_key : String) (ith_frame : ℕ) : String :=
  ⟨video_key.data ++ '/' :: (pad8 (decimalChars ith_frame) ++ ['.', 'j', 'p', 'g'])⟩

/-- Numeric value of a decimal digit character. -/
def charVal (c : Char) : ℕ := c.toNat - 48

/-- Parse a big-endian decimal digit string.  Used only to invert the
key formatting when proving keys injective. -/
def parseDec (s : List Char) : ℕ := s.foldl (fun acc c => 10 * acc + charVal c) 0

theorem foldl_parse_replicate_zero (k : ℕ) :
    (List.replicate k '0').foldl (fun acc c => 10 * acc + charVal c) 0 = 0 := by
  induction k with
  | zero => rfl
  | succ k ih =>
      rw [List.replicate_succ, List.foldl_cons]
      have h0 : 10 * 0 + charVal '0' = 0 := rfl
      rw [h0]
      exact ih

theorem parseDec_pad8 (s : List Char) : parseDec (pad8 s) = parseDec s := by
  rw [pad8, parseDec, List.foldl_append, foldl_parse_replicate_zero, parseDec]

theorem charVal_digitChar : ∀ d, d < 10 → charVal (Nat.digitChar d) = d := by decide

theorem parseDec_rev_digits (l : List ℕ) (hl : ∀ d ∈ l, d < 10) :
    parseDec (l.reverse.map Nat.digitChar) = Nat.ofDigits 10 l := by
  induction l with
  | nil => rfl
  | cons d t ih =>
      have hd : d < 10 := hl d (List.mem_cons_self d t)
      rw [List.reverse_cons, List.map_append, parseDec, List.foldl_append]
      have ht := ih (fun x hx => hl x (List.mem_cons_of_mem d hx))
      rw [parseDec] at ht
      rw [ht, List.map_cons, List.map_nil, List.foldl_cons, List.foldl_nil,
        charVal_digitChar d hd, Nat.ofDigits_cons]
      omega

theorem parseDec_decimalChars (n : ℕ) : parseDec (decimalChars n) = n := by
  by_cases h : n = 0
  · subst h; rfl
  · rw [decimalChars, if_neg h,
      parseDec_rev_digits _ (fun d hd => Nat.digits_lt_base (by norm_num) hd),
      Nat.ofDigits_digits]

theorem pad8_decimalChars_injective :
    Function.Injective fun n => pad8 (decimalChars n) := by
  intro a b hab
  have h := congrArg parseDec hab
  simpa [parseDec_pad8, parseDec_decimalChars] using h

theorem frameKey_injective (vk : String) : Function.Injective (frameKey vk) := by
  intro a b hab
  have h : vk.data ++ '/' :: pad8 (decimalChars a)
      = vk.data ++ '/' :: pad8 (decimalChars b) := by
    injection hab
  have h2 := List.append_cancel_left h
  have h3 : pad8 (decimalChars a) = pad8 (decimalChars b) := by injection h2
  exact pad8_decimalChars_injective h3

theorem fileKey_injective (vk : String) : Function.Injective (fileKey vk) := by
  intro a b hab
  have h : vk.data ++ '/' :: (pad8 (decimalChars a) ++ ['.', 'j', 'p', 'g'])
      = vk.data ++ '/' :: (pad8 (decimalChars b) ++ ['.', 'j', 'p', 'g']) := by
    injection hab
  have h2 := List.append_cancel_left h
  have h3 : pad8 (decimalChars a) ++ ['.', 'j', 'p', 'g']
      = pad8 (decimalChars b) ++ ['.', 'j', 'p', 'g'] := by injection h2
  exact pad8_decimalChars_injective (List.append_cancel_right h3)

/-- The recursive glob pattern `'**/*.jpg'` of `FileStorage.info`
(storage.py line 160) matches exactly the stored files whose name ends
in `.jpg`. -/
def endsWithJpg (s : String) : Bool := decide (s.data.reverse.take 4 = ['g', 'p', 'j', '.'])

theorem endsWithJpg_fileKey (vk : String) (i : ℕ) : endsWithJpg (fileKey vk i) = true := by
  have hdata : (fileKey vk i).data
      = (vk.data ++ '/' :: pad8 (decimalChars i)) ++ ['.', 'j', 'p', 'g'] := by
    simp [fileKey]
  rw [endsWithJpg, decide_eq_true_eq, hdata, List.reverse_append]
  rw [show (['.', 'j', 'p', 'g'] : List Char).reverse = ['g', 'p', 'j', '.'] from rfl]
  rw [show (4 : ℕ) = (['g', 'p', 'j', '.'] : List Char).length from rfl]
  exact List.take_left _ _

/-! ### Storage backends (storage.py)

A store is an association list from key strings to blobs.  `put`
operations read each retained frame file through `dir : String →
Option α` (a read failure is `none` and raises in Python).  `close` is
a durability flush only; it does not change stored content. -/

abbrev DB (α : Type) := List (String × α)

/-- Update-or-append on an association list: the write semantics of
`txn.put` (LMDB overwrites an existing key) and of `shutil.copy`
(overwrites an existing file). -/
def insertKV {α : Type} (db : DB α) (k : String) (v : α) : DB α :=
  match db with
  | [] => [(k, v)]
  | (k1, v1) :: rest => if k1 = k then (k, v) :: rest else (k1, v1) :: insertKV rest k v

theorem insertKV_of_not_mem {α : Type} (db : DB α) (k : String) (v : α)
    (h : k ∉ db.map Prod.fst) : insertKV db k v = db ++ [(k, v)] := by
  induction db with
  | nil => rfl
  | cons e rest ih =>
      rw [List.map_cons] at h
      have hne : e.1 ≠ k := fun he => h (by rw [he]; exact List.mem_cons_self _ _)
      have hrest : k ∉ rest.map Prod.fst := fun hm => h (List.mem_cons_of_mem _ hm)
      cases e with
      | mk k1 v1 =>
          rw [insertKV, if_neg hne, ih hrest, List.cons_append]

/-- Loop body of `LMDBStorage.put` (storage.py lines 48-53): for the
`i`-th entry of `frame_files`, read `clip_tmp_dir / frame_path` and
write the bytes under `frameKey`.  All writes happen inside one write
transaction; a read failure raises out of the `with` block, so the
transaction aborts and nothing at all is committed — modeled by the
`none` result. -/
def lmdbPutGo {α : Type} (dir : String → Option α) (vk : String) :
    ℕ → List (ℤ × String) → DB α → Option (DB α)
  | _, [], db => some db
  | i, e :: rest, db =>
    match dir e.2 with
    | none => none
    | some data => lmdbPutGo dir vk (i + 1) rest (insertKV db (frameKey vk i) data)

/-- `LMDBStorage.put` (storage.py lines 48-53). -/
def LMDBStorage.put {α : Type} (dir : String → Option α) (vk : String)
    (frame_files : List (ℤ × String)) (db : DB α) : Option (DB α) :=
  lmdbPutGo dir vk 0 frame_files db

/-- `LMDBStorage.close` (storage.py lines 55-57): sync then close; no
change to committed content. -/
def LMDBStorage.close {α : Type} (db : DB α) : DB α := db

/-- Loop body of `HDF5Storage.put` (storage.py lines 84-88).  There is
no transaction: each frame is written independently, and h5py refuses
to overwrite an existing dataset key.  The Bool is true when the loop
completed without error; on an error the frames already written
remain. -/
def hdf5PutGo {α : Type} (dir : String → Option α) (vk : String) :
    ℕ → List (ℤ × String) → DB α → DB α × Bool
  | _, [], db => (db, true)
  | i, e :: rest, db =>
    match dir e.2 with
    | none => (db, false)
    | some data =>
        if frameKey vk i ∈ db.map Prod.fst then (db, false)
        else hdf5PutGo dir vk (i + 1) rest (db ++ [(frameKey vk i, data)])

/-- `HDF5Storage.put` (storage.py lines 84-88). -/
def HDF5Storage.put {α : Type} (dir : String → Option α) (vk : String)
    (frame_files : List (ℤ × String)) (db : DB α) : DB α × Bool :=
  hdf5PutGo dir vk 0 frame_files db

/-- `HDF5Storage.close` (storage.py lines 90-91). -/
def HDF5Storage.close {α : Type} (db : DB α) : DB α := db

/-- Loop body of `FileStorage.put` (storage.py lines 150-154):
`shutil.copy` each retained frame to `save_dir/{ith:08d}.jpg`.  A
missing source file raises; frames already copied remain. -/
def filePutGo {α : Type} (dir : String → Option α) (vk : String) :
    ℕ → List (ℤ × String) → DB α → DB α × Bool
  | _, [], db => (db, true)
  | i, e :: rest, db =>
    match dir e.2 with
    | none => (db, false)
    | some data => filePutGo dir vk (i + 1) rest (insertKV db (fileKey vk i) data)

/-- `FileStorage.put` (storage.py lines 150-154). -/
def FileStorage.put {α : Type} (dir : String → Option α) (vk : String)
    (frame_files : List (ℤ × String)) (db : DB α) : DB α × Bool :=
  filePutGo dir vk 0 frame_files db

/-- `FileStorage.close`: inherited no-op (storage.py lines 22-23). -/
def FileStorage.close {α : Type} (db : DB α) : DB α := db

/-- The read loop of `PKLStorage.put` (storage.py lines 123-126): all
frame bytes are collected in order before anything is written. -/
def readFrames {α : Type} (dir : String → Option α) :
    List (ℤ × String) → Option (List α)
  | [] => some []
  | e :: rest =>
    match dir e.2 with
    | none => none
    | some data => (readFrames dir rest).map (fun ds => data :: ds)

/-- `PKLStorage.put` (storage.py lines 120-127): one pickled list of
frame byte strings per video, stored under the video key; the dump at
the end overwrites any artifact already present for that key.  A read
failure raises before the dump, leaving the store unchanged. -/
def PKLStorage.put {α : Type} (dir : String → Option α) (vk : String)
    (frame_files : List (ℤ × String)) (db : DB (List α)) : DB (List α) × Bool :=
  match readFrames dir frame_files with
  | none => (db, false)
  | some ds => (insertKV db vk ds, true)

/-- `PKLStorage.close`: inherited no-op. -/
def PKLStorage.close {α : Type} (db : DB (List α)) : DB (List α) := db

/-! ### The info scan (`Storage.info` of each backend) -/

/-- Image dimensions (width, height), the result of a successful decode. -/
abbrev Dim := ℕ × ℕ

/-- The dict update `info[ik] = info.get(ik, 0) + 1`. -/
def tally : List (Dim × ℕ) → Dim → List (Dim × ℕ)
  | [], d => [(d, 1)]
  | (k, c) :: rest, d => if k = d then (k, c + 1) :: rest else (k, c) :: tally rest d

/-- Total frame count of a Metadata Report: the sum of the counts over
all dimension keys. -/
def totalCount (rep : List (Dim × ℕ)) : ℕ := (rep.map Prod.snd).sum

/-- The shared shape of every backend's info scan: try to decode each
stored blob; on success tally its dimensions and remember it as the
last successfully decoded image; on failure print a warning and
continue.  The scan returns the report together with the last decoded
image; when no blob ever decoded the Python functions end with
`return info, img` where `img` was never assigned, raising
UnboundLocalError — modeled by a `none` second component. -/
def scanGo {α : Type} (decode : α → Option Dim) :
    List (Dim × ℕ) → Option Dim → List α → List (Dim × ℕ) × Option Dim
  | rep, img, [] => (rep, img)
  | rep, img, b :: rest =>
    match decode b with
    | some d => scanGo decode (tally rep d) (some d) rest
    | none => scanGo decode rep img rest

/-- `LMDBStorage.info` (storage.py lines 59-76): full forward cursor
scan over every stored value.  The cursor visits entries in key order;
the stores built below by a single `put` are already in ascending key
order, and the tally is order-independent. -/
def LMDBStorage.info {α : Type} (decode : α → Option Dim) (db : DB α) :
    List (Dim × ℕ) × Option Dim :=
  scanGo decode [] none (db.map Prod.snd)

/-- `HDF5Storage.info` (storage.py lines 93-111): iterate every video
group and every dataset inside it, which visits each stored blob
exactly once.  The Bool records whether the distinct
"No video frames found" message was printed (the store held no keys). -/
def HDF5Storage.info {α : Type} (decode : α → Option Dim) (db : DB α) :
    Bool × (List (Dim × ℕ) × Option Dim) :=
  (db.isEmpty, scanGo decode [] none (db.map Prod.snd))

/-- `PKLStorage.info` (storage.py lines 129-143): iterate every video
subdirectory, unpickle its frame list, and decode each frame. -/
def PKLStorage.info {α : Type} (decode : α → Option Dim) (db : DB (List α)) :
    List (Dim × ℕ) × Option Dim :=
  scanGo decode [] none (db.map Prod.snd).flatten

/-- `FileStorage.info` (storage.py lines 156-167): glob `'**/*.jpg'`
under the storage root and decode each matching file. -/
def FileStorage.info {α : Type} (decode : α → Option Dim) (db : DB α) :
    List (Dim × ℕ) × Option Dim :=
  scanGo decode [] none ((db.filter (fun e => endsWithJpg e.1)).map Prod.snd)

theorem totalCount_tally (rep : List (Dim × ℕ)) (d : Dim) :
    totalCount (tally rep d) = totalCount rep + 1 := by
  induction rep with
  | nil => rfl
  | cons e rest ih =>
      cases e with
      | mk k c =>
          by_cases h : k = d
          · rw [tally, if_pos h]
            simp [totalCount]
            omega
          · rw [tally, if_neg h]
            simp only [totalCount, List.map_cons, List.sum_cons] at *
            omega

theorem scanGo_total {α : Type} (decode : α → Option Dim) (bs : List α) :
    ∀ (rep : List (Dim × ℕ)) (img : Option Dim),
      totalCount (scanGo decode rep img bs).1
        = totalCount rep + bs.countP (fun b => (decode b).isSome) := by
  induction bs with
  | nil => intro rep img; simp [scanGo]
  | cons b rest ih =>
      intro rep img
      rw [scanGo]
      cases hb : decode b with
      | none => rw [ih, List.countP_cons]; simp [hb]
      | some d => rw [ih, totalCount_tally, List.countP_cons]; simp [hb]; omega

theorem scanGo_isSome {α : Type} (decode : α → Option Dim) (bs : List α) :
    ∀ (rep : List (Dim × ℕ)) (img : Option Dim),
      (scanGo decode rep img bs).2.isSome
        = (img.isSome || bs.any (fun b => (decode b).isSome)) := by
  induction bs with
  | nil => intro rep img; simp [scanGo]
  | cons b rest ih =>
      intro rep img
      rw [scanGo]
      cases hb : decode b with
      | none => rw [ih, List.any_cons]; simp [hb]
      | some d => rw [ih, List.any_cons]; simp [hb]

/-! ### Behaviour of `put` on fresh stores -/

theorem lmdbPutGo_spec {α : Type} (dir : String → Option α) (vk : String) :
    ∀ (fs : List (ℤ × String)) (i : ℕ) (db : DB α),
      (∀ e ∈ fs, (dir e.2).isSome) →
      (∀ j, i ≤ j → frameKey vk j ∉ db.map Prod.fst) →
      ∃ ds : List α,
        lmdbPutGo dir vk i fs db
          = some (db ++ ((List.range' i fs.length).map (frameKey vk)).zip ds) ∧
        ds.length = fs.length ∧
        ∀ a ∈ ds, ∃ e ∈ fs, dir e.2 = some a := by
  intro fs
  induction fs with
  | nil =>
      intro i db hread hfresh
      exact ⟨[], by simp [lmdbPutGo], by simp, by simp⟩
  | cons e rest ih =>
      intro i db hread hfresh
      obtain ⟨a, ha⟩ := Option.isSome_iff_exists.mp (hread e (List.mem_cons_self e rest))
      have hkey : frameKey vk i ∉ db.map Prod.fst := hfresh i le_rfl
      have hins := insertKV_of_not_mem db (frameKey vk i) a hkey
      have hfresh2 : ∀ j, i + 1 ≤ j →
          frameKey vk j ∉ (insertKV db (frameKey vk i) a).map Prod.fst := by
        intro j hj hmem
        rw [hins, List.map_append] at hmem
        rcases List.mem_append.mp hmem with hm | hm
        · exact hfresh j (by omega) hm
        · simp only [List.map_cons, List.map_nil, List.mem_singleton] at hm
          exact absurd (frameKey_injective vk hm) (by omega)
      obtain ⟨ds, hds, hlen, hmem⟩ := ih (i + 1) (insertKV db (frameKey vk i) a)
        (fun x hx => hread x (List.mem_cons_of_mem e hx)) hfresh2
      refine ⟨a :: ds, ?_, by simp [hlen], ?_⟩
      · simp only [lmdbPutGo, ha]
        rw [hds, hins]
        rw [List.length_cons, List.range'_succ, List.map_cons, List.zip_cons_cons]
        simp [List.append_assoc]
      · intro x hx
        rcases List.mem_cons.mp hx with hx | hx
        · exact ⟨e, List.mem_cons_self e rest, hx ▸ ha⟩
        · obtain ⟨e1, he1, h1⟩ := hmem x hx
          exact ⟨e1, List.mem_cons_of_mem e he1, h1⟩

theorem hdf5PutGo_spec {α : Type} (dir : String → Option α) (vk : String) :
    ∀ (fs : List (ℤ × String)) (i : ℕ) (db : DB α),
      (∀ e ∈ fs, (dir e.2).isSome) →
      (∀ j, i ≤ j → frameKey vk j ∉ db.map Prod.fst) →
      ∃ ds : List α,
        hdf5PutGo dir vk i fs db
          = (db ++ ((List.range' i fs.length).map (frameKey vk)).zip ds, true) ∧
        ds.length = fs.length ∧
        ∀ a ∈ ds, ∃ e ∈ fs, dir e.2 = some a := by
  intro fs
  induction fs with
  | nil =>
      intro i db hread hfresh
      exact ⟨[], by simp [hdf5PutGo], by simp, by simp⟩
  | cons e rest ih =>
      intro i db hread hfresh
      obtain ⟨a, ha⟩ := Option.isSome_iff_exists.mp (hread e (List.mem_cons_self e rest))
      have hkey : frameKey vk i ∉ db.map Prod.fst := hfresh i le_rfl
      have hfresh2 : ∀ j, i + 1 ≤ j →
          frameKey vk j ∉ (db ++ [(frameKey vk i, a)]).map Prod.fst := by
        intro j hj hmem
        rw [List.map_append] at hmem
        rcases List.mem_append.mp hmem with hm | hm
        · exact hfresh j (by omega) hm
        · simp only [List.map_cons, List.map_nil, List.mem_singleton] at hm
          exact absurd (frameKey_injective vk hm) (by omega)
      obtain ⟨ds, hds, hlen, hmem⟩ := ih (i + 1) (db ++ [(frameKey vk i, a)])
        (fun x hx => hread x (List.mem_cons_of_mem e hx)) hfresh2
      refine ⟨a :: ds, ?_, by simp [hlen], ?_⟩
      · simp only [hdf5PutGo, ha]
        rw [if_neg hkey, hds]
        rw [List.length_cons, List.range'_succ, List.map_cons, List.zip_cons_cons]
        simp [List.append_assoc]
      · intro x hx
        rcases List.mem_cons.mp hx with hx | hx
        · exact ⟨e, List.mem_cons_self e rest, hx ▸ ha⟩
        · obtain ⟨e1, he1, h1⟩ := hmem x hx
          exact ⟨e1, List.mem_cons_of_mem e he1, h1⟩

theorem filePutGo_spec {α : Type} (dir : String → Option α) (vk : String) :
    ∀ (fs : List (ℤ × String)) (i : ℕ) (db : DB α),
      (∀ e ∈ fs, (dir e.2).isSome) →
      (∀ j, i ≤ j → fileKey vk j ∉ db.map Prod.fst) →
      ∃ ds : List α,
        filePutGo dir vk i fs db
          = (db ++ ((List.range' i fs.length).map (fileKey vk)).zip ds, true) ∧
        ds.length = fs.length ∧
        ∀ a ∈ ds, ∃ e ∈ fs, dir e.2 = some a := by
  intro fs
  induction fs with
  | nil =>
      intro i db hread hfresh
      exact ⟨[], by simp [filePutGo], by simp, by simp⟩
  | cons e rest ih =>
      intro i db hread hfresh
      obtain ⟨a, ha⟩ := Option.isSome_iff_exists.mp (hread e (List.mem_cons_self e rest))
      have hkey : fileKey vk i ∉ db.map Prod.fst := hfresh i le_rfl
      have hins := insertKV_of_not_mem db (fileKey vk i) a hkey
      have hfresh2 : ∀ j, i + 1 ≤ j →
          fileKey vk j ∉ (insertKV db (fileKey vk i) a).map Prod.fst := by
        intro j hj hmem
        rw [hins, List.map_append] at hmem
        rcases List.mem_append.mp hmem with hm | hm
        · exact hfresh j (by omega) hm
        · simp only [List.map_cons, List.map_nil, List.mem_singleton] at hm
          exact absurd (fileKey_injective vk hm) (by omega)
      obtain ⟨ds, hds, hlen, hmem⟩ := ih (i + 1) (insertKV db (fileKey vk i) a)
        (fun x hx => hread x (List.mem_cons_of_mem e hx)) hfresh2
      refine ⟨a :: ds, ?_, by simp [hlen], ?_⟩
      · simp only [filePutGo, ha]
        rw [hds, hins]
        rw [List.length_cons, List.range'_succ, List.map_cons, List.zip_cons_cons]
        simp [List.append_assoc]
      · intro x hx
        rcases List.mem_cons.mp hx with hx | hx
        · exact ⟨e, List.mem_cons_self e rest, hx ▸ ha⟩
        · obtain ⟨e1, he1, h1⟩ := hmem x hx
          exact ⟨e1, List.mem_cons_of_mem e he1, h1⟩

theorem readFrames_spec {α : Type} (dir : String → Option α) :
    ∀ (fs : List (ℤ × String)), (∀ e ∈ fs, (dir e.2).isSome) →
      ∃ ds : List α, readFrames dir fs = some ds ∧ ds.length = fs.length ∧
        ∀ a ∈ ds, ∃ e ∈ fs, dir e.2 = some a := by
  intro fs
  induction fs with
  | nil => intro hread; exact ⟨[], rfl, rfl, by simp⟩
  | cons e rest ih =>
      intro hread
      obtain ⟨a, ha⟩ := Option.isSome_iff_exists.mp (hread e (List.mem_cons_self e rest))
      obtain ⟨ds, hds, hlen, hmem⟩ := ih (fun x hx => hread x (List.mem_cons_of_mem e hx))
      refine ⟨a :: ds, ?_, by simp [hlen], ?_⟩
      · simp only [readFrames, ha]
        rw [hds]
        rfl
      · intro x hx
        rcases List.mem_cons.mp hx with hx | hx
        · exact ⟨e, List.mem_cons_self e rest, hx ▸ ha⟩
        · obtain ⟨e1, he1, h1⟩ := hmem x hx
          exact ⟨e1, List.mem_cons_of_mem e he1, h1⟩

theorem scan_all_decodable {α : Type} (decode : α → Option Dim) (bs : List α)
    (h : ∀ a ∈ bs, (decode a).isSome) (hne : bs ≠ []) :
    totalCount (scanGo decode [] none bs).1 = bs.length ∧
    (scanGo decode [] none bs).2.isSome = true := by
  constructor
  · rw [scanGo_total]
    have hc : bs.countP (fun b => (decode b).isSome) = bs.length :=
      List.countP_eq_length.mpr (fun a ha => by simpa using h a ha)
    simp [totalCount, hc]
  · rw [scanGo_isSome]
    cases bs with
    | nil => exact absurd rfl hne
    | cons b t =>
        have hb := h b (List.mem_cons_self b t)
        simp [List.any_cons, hb]

/-! ### Claims about the storage layer -/

theorem lmdbPutGo_eq_none_iff {α : Type} (dir : String → Option α) (vk : String) :
    ∀ (fs : List (ℤ × String)) (i : ℕ) (db : DB α),
      lmdbPutGo dir vk i fs db = none ↔ ∃ e ∈ fs, dir e.2 = none := by
  intro fs
  induction fs with
  | nil => intro i db; simp [lmdbPutGo]
  | cons e rest ih =>
      intro i db
      cases ha : dir e.2 with
      | none =>
          simp only [lmdbPutGo, ha]
          exact ⟨fun _ => ⟨e, List.mem_cons_self e rest, ha⟩, fun _ => trivial⟩
      | some a =>
          simp only [lmdbPutGo, ha]
          rw [ih]
          constructor
          · rintro ⟨x, hx, hxn⟩
            exact ⟨x, List.mem_cons_of_mem e hx, hxn⟩
          · rintro ⟨x, hx, hxn⟩
            rcases List.mem_cons.mp hx with h | h
            · rw [h, ha] at hxn
              exact absurd hxn (by simp)
            · exact ⟨x, h, hxn⟩

/-- Claim C7: `LMDBStorage.put` writes all of a video's frames inside a
single write transaction, so a source-file read failure on any entry
aborts the whole `put` with an error (the raised exception aborts the
transaction before commit) and leaves no frame of that video committed;
the error case arises exactly from a read failure. -/
theorem lmdb_put_all_or_nothing {α : Type} (dir : String → Option α) (vk : String)
    (fs : List (ℤ × String)) (db : DB α) :
    LMDBStorage.put dir vk fs db = none ↔ ∃ e ∈ fs, dir e.2 = none :=
  lmdbPutGo_eq_none_iff dir vk fs 0 db

/-- `h5py.File(str(path), "w-")` — exclusive create (storage.py line 82,
code comment "fail if exists"): if a file already exists at the path
the constructor raises (`none` handle), otherwise it creates the file
and returns a handle.  The Bool result component is the post-state:
whether a file exists at the path afterwards. -/
def h5pyFileExclusive (fileExists : Bool) : Option Unit × Bool :=
  if fileExists then (none, fileExists) else (some (), true)

/-- `HDF5Storage.__init__` (storage.py lines 80-82). -/
def HDF5Storage.init (fileExists : Bool) : Option Unit × Bool :=
  h5pyFileExclusive fileExists

/-- Claim C6: constructing the HDF5 backend fails if the target file
already exists: on a fresh path the first open succeeds (and creates
the file), and a second open of the same path fails, so an existing
backend is never silently overwritten. -/
theorem hdf5_exclusive_create_open_twice :
    (HDF5Storage.init false).1.isSome = true ∧
    (HDF5Storage.init (HDF5Storage.init false).2).1.isSome = false := by decide

/-- Claim C5 (code-bug evidence): an info scan over an empty store
prints the distinct "No video frames found" message for the HDF5
backend (first component true) and tallies an empty report, but the
scan ends with `return info, img` where `img` was never assigned, so
both `HDF5Storage.info` and `LMDBStorage.info` raise UnboundLocalError
instead of returning the empty report — modeled by the absent last
image.  (LMDBStorage.info additionally prints no message at all.) -/
theorem info_empty_database_unbound_image (α : Type) (decode : α → Option Dim) :
    (HDF5Storage.info decode ([] : DB α)).1 = true ∧
    (HDF5Storage.info decode ([] : DB α)).2.1 = [] ∧
    (HDF5Storage.info decode ([] : DB α)).2.2 = none ∧
    (LMDBStorage.info decode ([] : DB α)).1 = [] ∧
    (LMDBStorage.info decode ([] : DB α)).2 = none :=
  ⟨rfl, rfl, rfl, rfl, rfl⟩

/-- Claim C3: `put` commits the i-th entry (0-based) of the ordered
frame list under the Frame Key `{video_key}/{i:08d}`: starting from an
empty store with all source reads succeeding, the keys written by the
LMDB-style and HDF5 backends are exactly the frame keys of the
contiguous indices 0..N-1, in list order, and the key map is injective,
so no two retained frames of one video share an `ith_frame`. -/
theorem put_frame_keys_contiguous_injective {α : Type} (dir : String → Option α)
    (vk : String) (fs : List (ℤ × String))
    (hread : ∀ e ∈ fs, (dir e.2).isSome) :
    (∃ db : DB α, LMDBStorage.put dir vk fs [] = some db ∧
        db.map Prod.fst = (List.range fs.length).map (frameKey vk)) ∧
    ((HDF5Storage.put dir vk fs []).2 = true ∧
      (HDF5Storage.put dir vk fs []).1.map Prod.fst
        = (List.range fs.length).map (frameKey vk)) ∧
    Function.Injective (frameKey vk) := by
  have hfresh : ∀ j, (0 : ℕ) ≤ j → frameKey vk j ∉ (([] : DB α)).map Prod.fst := by
    intro j hj h
    simp at h
  obtain ⟨ds, hput, hlen, hmem⟩ := lmdbPutGo_spec dir vk fs 0 [] hread hfresh
  obtain ⟨ds2, hput2, hlen2, hmem2⟩ := hdf5PutGo_spec dir vk fs 0 [] hread hfresh
  have hkeys : ∀ ds0 : List α, ds0.length = fs.length →
      ((((List.range' 0 fs.length).map (frameKey vk)).zip ds0)).map Prod.fst
        = (List.range fs.length).map (frameKey vk) := by
    intro ds0 hlen0
    rw [List.map_fst_zip]
    · rw [List.range_eq_range']
    · simp [hlen0]
  refine ⟨⟨((List.range' 0 fs.length).map (frameKey vk)).zip ds, ?_, hkeys ds hlen⟩,
    ⟨?_, ?_⟩, frameKey_injective vk⟩
  · simpa using hput
  · simp only [HDF5Storage.put]
    rw [hput2]
  · simp only [HDF5Storage.put]
    rw [hput2]
    simpa using hkeys ds2 hlen2

/-- Witness for C3 at a concrete input. -/
theorem put_frame_keys_contiguous_injective_witness :
    (∀ e ∈ ([(1, "a"), (2, "b")] : List (ℤ × String)),
        (((fun _ => some 7) : String → Option ℕ) e.2).isSome) ∧
    ((∃ db : DB ℕ,
        LMDBStorage.put ((fun _ => some 7) : String → Option ℕ) "v" [(1, "a"), (2, "b")] []
          = some db ∧
        db.map Prod.fst
          = (List.range ([(1, "a"), (2, "b")] : List (ℤ × String)).length).map (frameKey "v")) ∧
     ((HDF5Storage.put ((fun _ => some 7) : String → Option ℕ) "v" [(1, "a"), (2, "b")] []).2
          = true ∧
        (HDF5Storage.put ((fun _ => some 7) : String → Option ℕ) "v" [(1, "a"), (2, "b")] []).1.map
            Prod.fst
          = (List.range ([(1, "a"), (2, "b")] : List (ℤ × String)).length).map (frameKey "v")) ∧
     Function.Injective (frameKey "v")) :=
  ⟨fun _ _ => rfl,
    put_frame_keys_contiguous_injective (fun _ => some 7) "v" [(1, "a"), (2, "b")]
      (fun _ _ => rfl)⟩

/-- The closed enum of backend variants (storage.py lines 170-175). -/
inductive Backend
  | lmdb
  | hdf5
  | pkl
  | file

/-- Run `put` for one video on a fresh store of the given backend, then
`close` it, then run the backend's `info` scan on the stored data (the
pipeline creates the store, calls `put` once per video, `close`s, and
`display_info` then calls `info`).  Returns `none` when `put` raised;
otherwise the Metadata Report and the last decoded image. -/
def putCloseInfo {α : Type} (b : Backend) (decode : α → Option Dim)
    (dir : String → Option α) (vk : String) (fs : List (ℤ × String)) :
    Option (List (Dim × ℕ) × Option Dim) :=
  match b with
  | .lmdb =>
    match LMDBStorage.put dir vk fs [] with
    | none => none
    | some db => some (LMDBStorage.info decode (LMDBStorage.close db))
  | .hdf5 =>
    match HDF5Storage.put dir vk fs [] with
    | (db, ok) => if ok then some (HDF5Storage.info decode (HDF5Storage.close db)).2 else none
  | .pkl =>
    match PKLStorage.put dir vk fs [] with
    | (db, ok) => if ok then some (PKLStorage.info decode (PKLStorage.close db)) else none
  | .file =>
    match FileStorage.put dir vk fs [] with
    | (db, ok) => if ok then some (FileStorage.info decode (FileStorage.close db)) else none

/-- Claim C1 (amended to N ≥ 1): for every backend variant and every
video whose retained frame list has N ≥ 1 entries, all of which are
readable files holding valid images: after `put` on a fresh store and
`close`, `info` returns a Metadata Report whose total frame count (the
sum of the counts over all dimension keys) equals N, together with a
last decoded image (so the final `return info, img` does not raise). -/
theorem put_close_info_total_count {α : Type} (b : Backend) (decode : α → Option Dim)
    (dir : String → Option α) (vk : String) (fs : List (ℤ × String))
    (hread : ∀ e ∈ fs, ∃ a, dir e.2 = some a ∧ (decode a).isSome)
    (hne : fs ≠ []) :
    ∃ (rep : List (Dim × ℕ)) (img : Dim),
      putCloseInfo b decode dir vk fs = some (rep, some img) ∧
      totalCount rep = fs.length := by
  have hread1 : ∀ e ∈ fs, (dir e.2).isSome := by
    intro e he
    obtain ⟨a, ha, _⟩ := hread e he
    rw [ha]
    rfl
  have hdec : ∀ ds : List α, (∀ a ∈ ds, ∃ e ∈ fs, dir e.2 = some a) →
      ∀ a ∈ ds, (decode a).isSome := by
    intro ds hds a ha
    obtain ⟨e, he, hae⟩ := hds a ha
    obtain ⟨c, hc, hcdec⟩ := hread e he
    rw [hc] at hae
    injection hae with hca
    exact hca ▸ hcdec
  have hdsne : ∀ ds : List α, ds.length = fs.length → ds ≠ [] := by
    intro ds hlen h
    rw [h] at hlen
    exact hne (List.length_eq_zero.mp hlen.symm)
  have hfresh : ∀ j, (0 : ℕ) ≤ j → frameKey vk j ∉ (([] : DB α)).map Prod.fst := by
    intro j hj h
    simp at h
  have hfreshF : ∀ j, (0 : ℕ) ≤ j → fileKey vk j ∉ (([] : DB α)).map Prod.fst := by
    intro j hj h
    simp at h
  have hfinish : ∀ ds : List α, ds.length = fs.length →
      (∀ a ∈ ds, ∃ e ∈ fs, dir e.2 = some a) →
      ∃ (rep : List (Dim × ℕ)) (img : Dim),
        scanGo decode [] none ds = (rep, some img) ∧ totalCount rep = fs.length := by
    intro ds hlen hm
    obtain ⟨ht, hi⟩ := scan_all_decodable decode ds (hdec ds hm) (hdsne ds hlen)
    obtain ⟨img, himg⟩ := Option.isSome_iff_exists.mp hi
    exact ⟨(scanGo decode [] none ds).1, img, by rw [← himg], by rw [ht, hlen]⟩
  cases b with
  | lmdb =>
      obtain ⟨ds, hput, hlen, hmem⟩ := lmdbPutGo_spec dir vk fs 0 [] hread1 hfresh
      have hvals : ((((List.range' 0 fs.length).map (frameKey vk)).zip ds)).map Prod.snd = ds := by
        rw [List.map_snd_zip]
        simp [hlen]
      obtain ⟨rep, img, hscan, htot⟩ := hfinish ds hlen hmem
      refine ⟨rep, img, ?_, htot⟩
      simp only [putCloseInfo, LMDBStorage.put]
      rw [hput]
      simp only [LMDBStorage.info, LMDBStorage.close, List.nil_append]
      rw [hvals, hscan]
  | hdf5 =>
      obtain ⟨ds, hput, hlen, hmem⟩ := hdf5PutGo_spec dir vk fs 0 [] hread1 hfresh
      have hvals : ((((List.range' 0 fs.length).map (frameKey vk)).zip ds)).map Prod.snd = ds := by
        rw [List.map_snd_zip]
        simp [hlen]
      obtain ⟨rep, img, hscan, htot⟩ := hfinish ds hlen hmem
      refine ⟨rep, img, ?_, htot⟩
      simp only [putCloseInfo, HDF5Storage.put]
      rw [hput]
      simp only [HDF5Storage.info, HDF5Storage.close, if_true, List.nil_append]
      rw [hvals, hscan]
  | pkl =>
      obtain ⟨ds, hput, hlen, hmem⟩ := readFrames_spec dir fs hread1
      obtain ⟨rep, img, hscan, htot⟩ := hfinish ds hlen hmem
      refine ⟨rep, img, ?_, htot⟩
      simp only [putCloseInfo, PKLStorage.put]
      rw [hput]
      simp only [PKLStorage.info, PKLStorage.close, if_true]
      rw [show (insertKV ([] : DB (List α)) vk ds) = [(vk, ds)] from rfl]
      rw [show (([(vk, ds)] : DB (List α)).map Prod.snd).flatten = ds by simp]
      rw [hscan]
  | file =>
      obtain ⟨ds, hput, hlen, hmem⟩ := filePutGo_spec dir vk fs 0 [] hread1 hfreshF
      have hkeyslen : (((List.range' 0 fs.length).map (fileKey vk))).length = ds.length := by
        simp [hlen]
      have hfilter :
          ((((List.range' 0 fs.length).map (fileKey vk)).zip ds)).filter
              (fun e => endsWithJpg e.1)
            = (((List.range' 0 fs.length).map (fileKey vk)).zip ds) := by
        apply List.filter_eq_self.mpr
        intro e he
        have h1 : e.1 ∈ ((((List.range' 0 fs.length).map (fileKey vk)).zip ds)).map Prod.fst :=
          List.mem_map_of_mem Prod.fst he
        rw [List.map_fst_zip _ _ (le_of_eq hkeyslen)] at h1
        obtain ⟨j, hj, hje⟩ := List.mem_map.mp h1
        rw [← hje]
        exact endsWithJpg_fileKey vk j
      have hvals : ((((List.range' 0 fs.length).map (fileKey vk)).zip ds)).map Prod.snd = ds := by
        rw [List.map_snd_zip]
        simp [hlen]
      obtain ⟨rep, img, hscan, htot⟩ := hfinish ds hlen hmem
      refine ⟨rep, img, ?_, htot⟩
      simp only [putCloseInfo, FileStorage.put]
      rw [hput]
      simp only [FileStorage.info, FileStorage.close, if_true, List.nil_append]
      rw [hfilter, hvals, hscan]

/-- Witness for C1 at a concrete input: one 2x2 frame, every backend. -/
theorem put_close_info_total_count_witness :
    ((∀ e ∈ ([(1, "a")] : List (ℤ × String)),
        ∃ k : ℕ, ((fun _ => some 7) : String → Option ℕ) e.2 = some k ∧
          (((fun _ => some (2, 2)) : ℕ → Option Dim) k).isSome) ∧
      ([(1, "a")] : List (ℤ × String)) ≠ []) ∧
    (∀ b : Backend, ∃ (rep : List (Dim × ℕ)) (img : Dim),
      putCloseInfo b ((fun _ => some (2, 2)) : ℕ → Option Dim)
          ((fun _ => some 7) : String → Option ℕ) "v" [(1, "a")] = some (rep, some img) ∧
      totalCount rep = ([(1, "a")] : List (ℤ × String)).length) :=
  ⟨⟨fun _ _ => ⟨7, rfl, rfl⟩, by simp⟩,
    fun b => put_close_info_total_count b (fun _ => some (2, 2)) (fun _ => some 7) "v"
      [(1, "a")] (fun _ _ => ⟨7, rfl, rfl⟩) (by simp)⟩

/-- Claim C1 counterexample: with N = 0 retained frames (the claim as
stated allows an empty retained list), `put` succeeds on the plain-file
backend, but the info scan never decodes an image, so `FileStorage.info`
reaches `return info, img` with `img` unassigned and raises
UnboundLocalError instead of returning a Metadata Report: the scan
result carries no last image. -/
theorem file_info_after_empty_put_returns_nothing :
    putCloseInfo Backend.file ((fun _ => some (2, 2)) : ℕ → Option Dim)
        ((fun _ => some 7) : String → Option ℕ) "v" []
      = some ([], none) := rfl

/-! ### The per-video pipeline (vid2frame.py lines 197-233)

The frame loop iterates over `v_dir.iterdir()`, the directory's
enumeration order, which is arbitrary; `files` below is that
enumeration as a list of `(int(f.stem), f.name)` pairs.  Fingerprints
are abstracted by a type `H` with a hash map `hashOf` (the chosen
imagehash algorithm applied to the opened image at the configured hash
size) and a distance `dist` (`hash1 - hash2`, the Hamming distance,
a natural number). -/

/-- Python `min` over a nonempty list (vid2frame.py line 200). -/
def minList : List ℤ → ℤ
  | [] => 0
  | x :: xs => xs.foldl min x

/-- Python `max` over a nonempty list (vid2frame.py line 200). -/
def maxList : List ℤ → ℤ
  | [] => 0
  | x :: xs => xs.foldl max x

theorem foldl_min_mem : ∀ (xs : List ℤ) (x : ℤ), xs.foldl min x ∈ x :: xs := by
  intro xs
  induction xs with
  | nil => intro x; exact List.mem_cons_self x []
  | cons y ys ih =>
      intro x
      rw [List.foldl_cons]
      rcases List.mem_cons.mp (ih (min x y)) with h | h
      · rcases min_choice x y with hc | hc
        · rw [h, hc]
          exact List.mem_cons_self x (y :: ys)
        · rw [h, hc]
          exact List.mem_cons_of_mem x (List.mem_cons_self y ys)
      · exact List.mem_cons_of_mem x (List.mem_cons_of_mem y h)

theorem foldl_min_le : ∀ (xs : List ℤ) (x : ℤ),
    xs.foldl min x ≤ x ∧ ∀ y ∈ xs, xs.foldl min x ≤ y := by
  intro xs
  induction xs with
  | nil => intro x; exact ⟨le_refl x, fun y hy => absurd hy (List.not_mem_nil y)⟩
  | cons z zs ih =>
      intro x
      rw [List.foldl_cons]
      obtain ⟨h1, h2⟩ := ih (min x z)
      refine ⟨le_trans h1 (min_le_left x z), ?_⟩
      intro y hy
      rcases List.mem_cons.mp hy with rfl | h
      · exact le_trans h1 (min_le_right x y)
      · exact h2 y h

theorem foldl_le_max : ∀ (xs : List ℤ) (x : ℤ),
    x ≤ xs.foldl max x ∧ ∀ y ∈ xs, y ≤ xs.foldl max x := by
  intro xs
  induction xs with
  | nil => intro x; exact ⟨le_refl x, fun y hy => absurd hy (List.not_mem_nil y)⟩
  | cons z zs ih =>
      intro x
      rw [List.foldl_cons]
      obtain ⟨h1, h2⟩ := ih (max x z)
      refine ⟨le_trans (le_max_left x z) h1, ?_⟩
      intro y hy
      rcases List.mem_cons.mp hy with rfl | h
      · exact le_trans (le_max_right x y) h1
      · exact h2 y h

theorem minList_mem (l : List ℤ) (h : l ≠ []) : minList l ∈ l := by
  cases l with
  | nil => exact absurd rfl h
  | cons x xs => exact foldl_min_mem xs x

theorem minList_le (l : List ℤ) : ∀ y ∈ l, minList l ≤ y := by
  cases l with
  | nil => exact fun y hy => absurd hy (List.not_mem_nil y)
  | cons x xs =>
      intro y hy
      rcases List.mem_cons.mp hy with h | h
      · exact h ▸ (foldl_min_le xs x).1
      · exact (foldl_min_le xs x).2 y h

theorem le_maxList (l : List ℤ) : ∀ y ∈ l, y ≤ maxList l := by
  cases l with
  | nil => exact fun y hy => absurd hy (List.not_mem_nil y)
  | cons x xs =>
      intro y hy
      rcases List.mem_cons.mp hy with h | h
      · exact h ▸ (foldl_le_max xs x).1
      · exact (foldl_le_max xs x).2 y h

theorem minList_le_maxList (l : List ℤ) (h : l ≠ []) : minList l ≤ maxList l :=
  le_maxList l (minList l) (minList_mem l h)

/-- `⌊q⌋` as explicit integer division (Euclidean division of the
reduced numerator by the denominator), kernel-computable. -/
def floorQ (q : ℚ) : ℤ := q.num / (q.den : ℤ)

theorem floorQ_eq (q : ℚ) : floorQ q = ⌊q⌋ := Rat.floor_def.symm

/-- The C cast to int32 performed by `np.linspace(..., dtype=np.int32)`
(vid2frame.py line 201): truncation toward zero. -/
def truncQ (q : ℚ) : ℤ := if 0 ≤ q then floorQ q else -floorQ (-q)

/-- Python `round`, used for the duplicate distance limit (vid2frame.py
line 154).  Python rounds half to even; no value arising in the claims
is a tie, where round-half-up (used here) and round-half-to-even
agree. -/
def roundQ (q : ℚ) : ℤ := floorQ (q + 1 / 2)

theorem truncQ_of_nonneg (q : ℚ) (h : 0 ≤ q) : truncQ q = ⌊q⌋ := by
  rw [truncQ, if_pos h, floorQ_eq]

theorem truncQ_intCast (z : ℤ) : truncQ (z : ℚ) = z := by
  by_cases h : (0 : ℚ) ≤ (z : ℚ)
  · rw [truncQ_of_nonneg _ h, Int.floor_intCast]
  · rw [truncQ, if_neg h, ← Int.cast_neg, floorQ_eq, Int.floor_intCast, neg_neg]

theorem truncQ_eval (q : ℚ) (z : ℤ) (h0 : 0 ≤ q) (h1 : (z : ℚ) ≤ q)
    (h2 : q < (z : ℚ) + 1) : truncQ q = z := by
  rw [truncQ_of_nonneg q h0]
  exact Int.floor_eq_iff.mpr ⟨h1, by exact_mod_cast h2⟩

theorem roundQ_eval (q : ℚ) (z : ℤ) (h1 : (z : ℚ) ≤ q + 1 / 2)
    (h2 : q + 1 / 2 < (z : ℚ) + 1) : roundQ q = z := by
  rw [roundQ, floorQ_eq]
  exact Int.floor_eq_iff.mpr ⟨h1, by exact_mod_cast h2⟩

/-- `np.linspace(a, b, n, endpoint=True)` over exact rationals: the `n`
points `a + i * (b - a) / (n - 1)`.  With exact arithmetic the final
point equals `b`, as numpy guarantees with `endpoint=True`; numpy
special-cases `n = 1` to `[a]`, which coincides with the formula here
because division by zero is zero in `ℚ`. -/
def linspace (a b : ℚ) (n : ℕ) : List ℚ :=
  (List.range n).map (fun i : ℕ => a + (i : ℚ) * (b - a) / ((n : ℚ) - 1))

/-- `sample_ids` (vid2frame.py lines 200-201):
`set(list(np.linspace(min(ids), max(ids), args.num_frame, endpoint=True,
dtype=np.int32)))`.  The set serves only membership tests, so it is
kept as the (possibly repetitive) list of truncated sample points. -/
def sampleIds (ids : List ℤ) (num_frame : ℕ) : List ℤ :=
  (linspace ((minList ids : ℤ) : ℚ) ((maxList ids : ℤ) : ℚ) num_frame).map truncQ

/-- What claim C4 and spec section 4.6 describe instead: the linearly
spaced points rounded to the NEAREST integer id.  Stated only to be
compared against the code's `sampleIds`. -/
def sampleIdsSpecRounded (ids : List ℤ) (num_frame : ℕ) : List ℤ :=
  (linspace ((minList ids : ℤ) : ℚ) ((maxList ids : ℤ) : ℚ) num_frame).map roundQ

/-- `detect_duplicate` (vid2frame.py lines 206-214) for an already
computed fingerprint `h1`: if some previously accepted fingerprint is
within `diff_limit`, report a duplicate and leave the accepted list
unchanged; otherwise append `h1` and report no duplicate. -/
def detect_duplicate {H : Type} (dist : H → H → ℕ) (diff_limit : ℤ) (h1 : H)
    (hashes : List H) : Bool × List H :=
  if hashes.any (fun h2 => decide ((dist h1 h2 : ℤ) ≤ diff_limit)) then (true, hashes)
  else (false, hashes ++ [h1])

/-- The mutable state of the frame loop (vid2frame.py lines 203-216). -/
structure LoopState (H : Type) where
  total_files : ℕ
  duplicates : ℕ
  hashes : List H
  frame_files : List (ℤ × String)

/-- One iteration of the frame loop (vid2frame.py lines 217-231) for
the file `f = (int(f.stem), f.name)`. -/
def stepFrame {H : Type} (sample : Bool) (sample_ids : List ℤ) (skip : ℤ)
    (no_duplicates : ℚ) (hashOf : String → H) (dist : H → H → ℕ) (diff_limit : ℤ)
    (st : LoopState H) (f : ℤ × String) : LoopState H :=
  if sample ∧ f.1 ∉ sample_ids then st
  else if ¬(sample : Prop) ∧ 1 < skip ∧ ¬(f.1 - 1) % skip = 0 then st
  else if 0 < no_duplicates then
    match detect_duplicate dist diff_limit (hashOf f.2) st.hashes with
    | (true, hs) => { st with total_files := st.total_files + 1,
                              duplicates := st.duplicates + 1, hashes := hs }
    | (false, hs) => { st with total_files := st.total_files + 1, hashes := hs,
                               frame_files := st.frame_files ++ [f] }
  else { st with total_files := st.total_files + 1, frame_files := st.frame_files ++ [f] }

/-- The frame loop (vid2frame.py lines 216-231), starting from the
empty counters of lines 203-205 and 216. -/
def frameLoop {H : Type} (sample : Bool) (sample_ids : List ℤ) (skip : ℤ)
    (no_duplicates : ℚ) (hashOf : String → H) (dist : H → H → ℕ) (diff_limit : ℤ)
    (files : List (ℤ × String)) : LoopState H :=
  files.foldl (stepFrame sample sample_ids skip no_duplicates hashOf dist diff_limit)
    ⟨0, 0, [], []⟩

/-- The per-video pipeline of vid2frame.py lines 197-231 (no interval
mode): compute the available ids, decide the sampling mode
(`sample = args.num_frame > 0`), build `sample_ids` when sampling,
compute `diff_limit = round((1 - args.no_duplicates) * hash_size**2)`,
and run the frame loop over the directory enumeration. -/
def processVideo {H : Type} (num_frame skip : ℤ) (no_duplicates : ℚ) (hash_size : ℕ)
    (hashOf : String → H) (dist : H → H → ℕ) (files : List (ℤ × String)) : LoopState H :=
  let ids := files.map Prod.fst
  let sample : Bool := decide (0 < num_frame)
  let s_ids := if sample then sampleIds ids num_frame.toNat else []
  let diff_limit := roundQ ((1 - no_duplicates) * (hash_size : ℚ) ^ 2)
  frameLoop sample s_ids skip no_duplicates hashOf dist diff_limit files

/-- The Selector decision of the frame loop: does the frame pass the
sampling test (vid2frame.py lines 219-224)?  Mirrors the two `continue`
guards of the loop. -/
def keepFrame (sample : Bool) (sample_ids : List ℤ) (skip : ℤ) (f : ℤ × String) : Bool :=
  if sample ∧ f.1 ∉ sample_ids then false
  else if ¬(sample : Prop) ∧ 1 < skip ∧ ¬(f.1 - 1) % skip = 0 then false
  else true

/-- `frame_files.sort()` (vid2frame.py line 233): Python's stable sort;
the stems in one directory are distinct, so sorting the pairs
lexicographically is sorting by frame id. -/
def sortFrames (l : List (ℤ × String)) : List (ℤ × String) :=
  l.insertionSort (fun a b => a.1 ≤ b.1)

theorem stepFrame_no_dup {H : Type} (sample : Bool) (s_ids : List ℤ) (skip : ℤ)
    (hashOf : String → H) (dist : H → H → ℕ) (dl : ℤ) (st : LoopState H)
    (f : ℤ × String) :
    stepFrame sample s_ids skip 0 hashOf dist dl st f =
      if keepFrame sample s_ids skip f then
        { st with total_files := st.total_files + 1,
                  frame_files := st.frame_files ++ [f] }
      else st := by
  rw [stepFrame, keepFrame]
  by_cases c1 : (sample : Prop) ∧ f.1 ∉ s_ids
  · rw [if_pos c1, if_pos c1, if_neg]
    simp
  · rw [if_neg c1, if_neg c1]
    by_cases c2 : ¬(sample : Prop) ∧ 1 < skip ∧ ¬(f.1 - 1) % skip = 0
    · rw [if_pos c2, if_pos c2, if_neg]
      simp
    · rw [if_neg c2, if_neg c2, if_neg (lt_irrefl (0 : ℚ)), if_pos rfl]

theorem foldl_stepFrame_no_dup {H : Type} (sample : Bool) (s_ids : List ℤ) (skip : ℤ)
    (hashOf : String → H) (dist : H → H → ℕ) (dl : ℤ) :
    ∀ (files : List (ℤ × String)) (st : LoopState H),
      files.foldl (stepFrame sample s_ids skip 0 hashOf dist dl) st =
        { st with
            total_files := st.total_files + files.countP (keepFrame sample s_ids skip),
            frame_files := st.frame_files ++ files.filter (keepFrame sample s_ids skip) } := by
  intro files
  induction files with
  | nil =>
      intro st
      simp
  | cons f fs ih =>
      intro st
      rw [List.foldl_cons, stepFrame_no_dup]
      by_cases hk : keepFrame sample s_ids skip f
      · rw [if_pos hk, ih]
        cases st with
        | mk t d hs ff =>
            simp [List.countP_cons, List.filter_cons, hk]
            omega
      · rw [if_neg hk, ih]
        cases st with
        | mk t d hs ff =>
            simp [List.countP_cons, List.filter_cons, hk]

theorem keepFrame_sample (s_ids : List ℤ) (skip : ℤ) (f : ℤ × String) :
    keepFrame true s_ids skip f = decide (f.1 ∈ s_ids) := by
  by_cases hm : f.1 ∈ s_ids
  · rw [keepFrame, if_neg (fun c => c.2 hm), if_neg (fun c => c.1 rfl), decide_eq_true hm]
  · rw [keepFrame, if_pos ⟨rfl, hm⟩, decide_eq_false hm]

theorem keepFrame_no_sample (s_ids : List ℤ) (skip : ℤ) (f : ℤ × String)
    (hskip : 1 ≤ skip) :
    keepFrame false s_ids skip f = decide ((f.1 - 1) % skip = 0) := by
  rw [keepFrame, if_neg (fun c => by simpa using c.1)]
  by_cases h : (f.1 - 1) % skip = 0
  · rw [if_neg (fun c => c.2.2 h), decide_eq_true h]
  · have h1 : 1 < skip := by
      rcases lt_or_eq_of_le hskip with h1 | h1
      · exact h1
      · exact absurd (by rw [← h1, Int.emod_one]) h
    rw [if_pos ⟨by simp, h1, h⟩, decide_eq_false h]

/-- Claim C9: with similarity threshold 0 the Duplicate Filter is
bypassed entirely, not run as a no-op distance check: the fingerprint
engine is never invoked (the hash list stays empty), no frame is ever
discarded as a duplicate, and the output is exactly the sampled input
(the frames passing the Selector, in enumeration order). -/
theorem threshold_zero_bypasses_filter {H : Type} (num_frame skip : ℤ) (hash_size : ℕ)
    (hashOf : String → H) (dist : H → H → ℕ) (files : List (ℤ × String)) :
    processVideo num_frame skip 0 hash_size hashOf dist files =
      { total_files := files.countP (keepFrame (decide (0 < num_frame))
            (if decide (0 < num_frame) then sampleIds (files.map Prod.fst) num_frame.toNat
             else []) skip),
        duplicates := 0,
        hashes := [],
        frame_files := files.filter (keepFrame (decide (0 < num_frame))
            (if decide (0 < num_frame) then sampleIds (files.map Prod.fst) num_frame.toNat
             else []) skip) } := by
  simp only [processVideo, frameLoop]
  rw [foldl_stepFrame_no_dup]
  simp

/-- Claim C8: with uniform sampling off and duplicate filtering off,
skip-stride sampling retains frame id f iff (f - 1) mod skip = 0; in
particular with skip = 1 every input frame id is retained, in order,
unchanged, and the final ascending sort leaves an already ascending
enumeration unchanged. -/
theorem skip_stride_retention {H : Type} (hashOf : String → H) (dist : H → H → ℕ)
    (hash_size : ℕ) (num_frame skip : ℤ) (files : List (ℤ × String))
    (hnum : num_frame ≤ 0) (hskip : 1 ≤ skip) :
    ((processVideo num_frame skip 0 hash_size hashOf dist files).frame_files
      = files.filter (fun f => decide ((f.1 - 1) % skip = 0))) ∧
    (skip = 1 →
      (processVideo num_frame skip 0 hash_size hashOf dist files).frame_files = files ∧
      (List.Sorted (fun a b : ℤ × String => a.1 ≤ b.1) files →
        sortFrames (processVideo num_frame skip 0 hash_size hashOf dist files).frame_files
          = files)) := by
  have hsam : decide (0 < num_frame) = false := decide_eq_false (not_lt.mpr hnum)
  have hmain : (processVideo num_frame skip 0 hash_size hashOf dist files).frame_files
      = files.filter (fun f => decide ((f.1 - 1) % skip = 0)) := by
    simp only [processVideo, frameLoop, hsam, Bool.false_eq_true, if_false]
    rw [foldl_stepFrame_no_dup]
    simp only [List.nil_append]
    exact List.filter_congr fun f _ => keepFrame_no_sample [] skip f hskip
  refine ⟨hmain, ?_⟩
  intro h1
  subst h1
  have hall : files.filter (fun f => decide ((f.1 - 1) % (1 : ℤ) = 0)) = files :=
    List.filter_eq_self.mpr fun f _ => decide_eq_true (Int.emod_one _)
  refine ⟨hmain.trans hall, ?_⟩
  intro hsorted
  rw [hmain, hall, sortFrames]
  exact List.Sorted.insertionSort_eq hsorted

/-- Witness for C8 at a concrete input: skip 2 over frames 1, 2, 3. -/
theorem skip_stride_retention_witness :
    ((-1 : ℤ) ≤ 0 ∧ (1 : ℤ) ≤ 2) ∧
    (((processVideo (-1) 2 0 8 (fun _ => (0 : ℕ)) (fun _ _ => 0)
          [(1, "a"), (2, "b"), (3, "c")]).frame_files
        = ([(1, "a"), (2, "b"), (3, "c")] : List (ℤ × String)).filter
            (fun f => decide ((f.1 - 1) % 2 = 0))) ∧
      ((2 : ℤ) = 1 →
        (processVideo (-1) 2 0 8 (fun _ => (0 : ℕ)) (fun _ _ => 0)
            [(1, "a"), (2, "b"), (3, "c")]).frame_files
          = [(1, "a"), (2, "b"), (3, "c")] ∧
        (List.Sorted (fun a b : ℤ × String => a.1 ≤ b.1)
            [(1, "a"), (2, "b"), (3, "c")] →
          sortFrames (processVideo (-1) 2 0 8 (fun _ => (0 : ℕ)) (fun _ _ => 0)
              [(1, "a"), (2, "b"), (3, "c")]).frame_files
            = [(1, "a"), (2, "b"), (3, "c")]))) :=
  ⟨⟨by decide, by decide⟩,
    skip_stride_retention (fun _ => (0 : ℕ)) (fun _ _ => 0) 8 (-1) 2
      [(1, "a"), (2, "b"), (3, "c")] (by decide) (by decide)⟩

/-! ### Uniform count sampling (claim C4) -/

theorem linspace_mem_bounds (a b : ℚ) (n : ℕ) (hab : a ≤ b) :
    ∀ q ∈ linspace a b n, a ≤ q ∧ q ≤ b := by
  intro q hq
  rw [linspace] at hq
  obtain ⟨i, hi, hiq⟩ := List.mem_map.mp hq
  rw [List.mem_range] at hi
  subst hiq
  by_cases hn : n = 1
  · subst hn
    have hi0 : i = 0 := by omega
    subst hi0
    have hpt : a + ((0 : ℕ) : ℚ) * (b - a) / (((1 : ℕ) : ℚ) - 1) = a := by norm_num
    rw [hpt]
    exact ⟨le_refl a, hab⟩
  · have hn2 : 2 ≤ n := by omega
    have hn1 : (0 : ℚ) < (n : ℚ) - 1 := by
      have h2 : (2 : ℚ) ≤ (n : ℚ) := by exact_mod_cast hn2
      linarith
    have hba : (0 : ℚ) ≤ b - a := sub_nonneg.mpr hab
    have hnn : (0 : ℚ) ≤ (i : ℚ) * (b - a) / ((n : ℚ) - 1) :=
      div_nonneg (mul_nonneg (Nat.cast_nonneg i) hba) hn1.le
    have hi1 : (i : ℚ) ≤ (n : ℚ) - 1 := by
      have h3 : (i : ℚ) + 1 ≤ (n : ℚ) := by exact_mod_cast hi
      linarith
    have key : (i : ℚ) * (b - a) / ((n : ℚ) - 1) ≤ b - a := by
      rw [div_le_iff₀ hn1]
      nlinarith
    exact ⟨by linarith, by linarith⟩

theorem sampleIds_one (ids : List ℤ) : sampleIds ids 1 = [minList ids] := by
  rw [sampleIds, linspace]
  rw [show List.range 1 = [0] from rfl]
  simp only [List.map_cons, List.map_nil, Nat.cast_zero, zero_mul, zero_div, add_zero]
  rw [truncQ_intCast]

theorem sampleIds_length (ids : List ℤ) (n : ℕ) : (sampleIds ids n).length = n := by
  simp [sampleIds, linspace]

theorem sampleIds_mem_range (ids : List ℤ) (n : ℕ) (hne : ids ≠ [])
    (hpos : ∀ i ∈ ids, 1 ≤ i) :
    ∀ m ∈ sampleIds ids n, minList ids ≤ m ∧ m ≤ maxList ids := by
  intro m hm
  rw [sampleIds] at hm
  obtain ⟨q, hq, hqm⟩ := List.mem_map.mp hm
  have hab : ((minList ids : ℤ) : ℚ) ≤ ((maxList ids : ℤ) : ℚ) := by
    exact_mod_cast minList_le_maxList ids hne
  obtain ⟨hq1, hq2⟩ := linspace_mem_bounds _ _ n hab q hq
  have hmin1 : (1 : ℤ) ≤ minList ids := hpos _ (minList_mem ids hne)
  have hq0 : (0 : ℚ) ≤ q := le_trans (by exact_mod_cast le_trans zero_le_one hmin1) hq1
  subst hqm
  rw [truncQ_of_nonneg q hq0]
  constructor
  · exact Int.le_floor.mpr hq1
  · have hfl := Int.floor_le_floor hq2
    rwa [Int.floor_intCast] at hfl

theorem filter_eq_singleton_of_nodup (l : List ℤ) (a : ℤ) (hn : l.Nodup) (ha : a ∈ l) :
    l.filter (fun x => decide (x = a)) = [a] := by
  induction l with
  | nil => cases ha
  | cons x xs ih =>
      have hx : x ∉ xs := (List.nodup_cons.mp hn).1
      have hxs : xs.Nodup := (List.nodup_cons.mp hn).2
      rw [List.filter_cons]
      rcases List.mem_cons.mp ha with rfl | h
      · rw [if_pos (by simp)]
        have hnil : xs.filter (fun x2 => decide (x2 = a)) = [] :=
          List.filter_eq_nil_iff.mpr fun b hb => by
            simp only [decide_eq_true_eq]
            intro hba
            exact hx (hba ▸ hb)
        rw [hnil]
      · have hxa : x ≠ a := fun he => hx (by rw [he]; exact h)
        rw [if_neg (by simp [hxa]), ih hxs h]

theorem map_fst_filter_fst (files : List (ℤ × String)) (p : ℤ → Bool) :
    (files.filter (fun f => p f.1)).map Prod.fst = (files.map Prod.fst).filter p := by
  rw [List.filter_map]
  rfl

/-- Claim C4 counterexample: available ids 1..5 and n = 4.  The spaced
points are 1, 7/3, 11/3, 5; the int32 cast truncates them toward zero
to {1, 2, 3, 5}, whereas rounding each point to the nearest integer id,
as the claim states, gives {1, 2, 4, 5}; the pipeline retains frames
{1, 2, 3, 5}. -/
theorem uniform_sampling_truncates_not_rounds :
    sampleIds [1, 2, 3, 4, 5] 4 = [1, 2, 3, 5] ∧
    sampleIdsSpecRounded [1, 2, 3, 4, 5] 4 = [1, 2, 4, 5] ∧
    ¬(∀ m : ℤ, m ∈ sampleIds [1, 2, 3, 4, 5] 4 ↔ m ∈ sampleIdsSpecRounded [1, 2, 3, 4, 5] 4) ∧
    (processVideo 4 1 0 8 (fun _ => (0 : ℕ)) (fun _ _ => 0)
        [(1, "f1"), (2, "f2"), (3, "f3"), (4, "f4"), (5, "f5")]).frame_files.map Prod.fst
      = [1, 2, 3, 5] := by
  have hmin : minList [1, 2, 3, 4, 5] = 1 := by decide
  have hmax : maxList [1, 2, 3, 4, 5] = 5 := by decide
  have h1 : sampleIds [1, 2, 3, 4, 5] 4 = [1, 2, 3, 5] := by
    rw [sampleIds, hmin, hmax, linspace]
    rw [show List.range 4 = [0, 1, 2, 3] from rfl]
    simp only [List.map_cons, List.map_nil, List.cons.injEq, and_true]
    refine ⟨?_, ?_, ?_, ?_⟩
    · exact truncQ_eval _ 1 (by norm_num) (by norm_num) (by norm_num)
    · exact truncQ_eval _ 2 (by norm_num) (by norm_num) (by norm_num)
    · exact truncQ_eval _ 3 (by norm_num) (by norm_num) (by norm_num)
    · exact truncQ_eval _ 5 (by norm_num) (by norm_num) (by norm_num)
  have h2 : sampleIdsSpecRounded [1, 2, 3, 4, 5] 4 = [1, 2, 4, 5] := by
    rw [sampleIdsSpecRounded, hmin, hmax, linspace]
    rw [show List.range 4 = [0, 1, 2, 3] from rfl]
    simp only [List.map_cons, List.map_nil, List.cons.injEq, and_true]
    refine ⟨?_, ?_, ?_, ?_⟩
    · exact roundQ_eval _ 1 (by norm_num) (by norm_num)
    · exact roundQ_eval _ 2 (by norm_num) (by norm_num)
    · exact roundQ_eval _ 4 (by norm_num) (by norm_num)
    · exact roundQ_eval _ 5 (by norm_num) (by norm_num)
  refine ⟨h1, h2, ?_, ?_⟩
  · intro hall
    simp only [h1, h2] at hall
    have h3 := (hall 3).mp (by decide)
    exact absurd h3 (by decide)
  · have hproc : (processVideo 4 1 0 8 (fun _ => (0 : ℕ)) (fun _ _ => 0)
        [(1, "f1"), (2, "f2"), (3, "f3"), (4, "f4"), (5, "f5")]).frame_files
        = [(1, "f1"), (2, "f2"), (3, "f3"), (5, "f5")] := by
      simp only [processVideo, frameLoop]
      rw [foldl_stepFrame_no_dup]
      rw [show (if (decide ((0 : ℤ) < 4) : Bool)
            then sampleIds (List.map Prod.fst
              [((1 : ℤ), "f1"), (2, "f2"), (3, "f3"), (4, "f4"), (5, "f5")]) ((4 : ℤ)).toNat
            else []) = sampleIds [1, 2, 3, 4, 5] 4 from rfl]
      rw [h1]
      decide
    rw [hproc]
    rfl

/-- Claim C4 (amended: the int32 cast truncates toward zero instead of
rounding to nearest): uniform count sampling with n > 0 retains exactly
the frames whose id lies among the n points spaced linearly between the
minimum and maximum available id inclusive, each truncated toward zero;
coinciding points collapse, so at most n (and possibly fewer) frames
are retained; with n = 1 exactly one frame (the first available id) is
retained; and when the available ids cover the whole range from minimum
to maximum, every distinct id in the spaced selection is retained. -/
theorem uniform_count_sampling {H : Type} (hashOf : String → H) (dist : H → H → ℕ)
    (hash_size : ℕ) (files : List (ℤ × String)) (n : ℕ)
    (hn : 0 < n) (hne : files ≠ [])
    (hnodup : (files.map Prod.fst).Nodup)
    (hpos : ∀ i ∈ files.map Prod.fst, 1 ≤ i) :
    ((processVideo (n : ℤ) 1 0 hash_size hashOf dist files).frame_files
      = files.filter (fun f => decide (f.1 ∈ sampleIds (files.map Prod.fst) n))) ∧
    (n = 1 →
      (processVideo (n : ℤ) 1 0 hash_size hashOf dist files).frame_files.map Prod.fst
        = [minList (files.map Prod.fst)]) ∧
    ((processVideo (n : ℤ) 1 0 hash_size hashOf dist files).frame_files.length ≤ n) ∧
    ((∀ m : ℤ, minList (files.map Prod.fst) ≤ m → m ≤ maxList (files.map Prod.fst) →
        m ∈ files.map Prod.fst) →
      ∀ m ∈ sampleIds (files.map Prod.fst) n,
        m ∈ (processVideo (n : ℤ) 1 0 hash_size hashOf dist files).frame_files.map
          Prod.fst) := by
  have hids : files.map Prod.fst ≠ [] := fun h => hne (List.map_eq_nil_iff.mp h)
  have hs : decide (0 < (n : ℤ)) = true := decide_eq_true (by exact_mod_cast hn)
  have htn : ((n : ℤ)).toNat = n := Int.toNat_natCast n
  have hmain : (processVideo (n : ℤ) 1 0 hash_size hashOf dist files).frame_files
      = files.filter (fun f => decide (f.1 ∈ sampleIds (files.map Prod.fst) n)) := by
    simp only [processVideo, frameLoop, hs, eq_self_iff_true, if_true, htn]
    rw [foldl_stepFrame_no_dup]
    simp only [List.nil_append]
    exact List.filter_congr fun f _ => keepFrame_sample _ 1 f
  refine ⟨hmain, ?_, ?_, ?_⟩
  · intro h1
    subst h1
    rw [hmain, sampleIds_one,
      map_fst_filter_fst files (fun x => decide (x ∈ [minList (files.map Prod.fst)]))]
    have hcong : (files.map Prod.fst).filter
          (fun x => decide (x ∈ [minList (files.map Prod.fst)]))
        = (files.map Prod.fst).filter
          (fun x => decide (x = minList (files.map Prod.fst))) :=
      List.filter_congr fun x _ => by simp [List.mem_singleton]
    rw [hcong, filter_eq_singleton_of_nodup _ _ hnodup (minList_mem _ hids)]
  · rw [hmain]
    have hlen : (files.filter
          (fun f => decide (f.1 ∈ sampleIds (files.map Prod.fst) n))).length
        = ((files.map Prod.fst).filter
          (fun x => decide (x ∈ sampleIds (files.map Prod.fst) n))).length := by
      rw [← map_fst_filter_fst files (fun x => decide (x ∈ sampleIds (files.map Prod.fst) n)),
        List.length_map]
    rw [hlen]
    have hLnodup : ((files.map Prod.fst).filter
        (fun x => decide (x ∈ sampleIds (files.map Prod.fst) n))).Nodup :=
      hnodup.filter _
    have hLsub : ((files.map Prod.fst).filter
          (fun x => decide (x ∈ sampleIds (files.map Prod.fst) n))).toFinset
        ⊆ (sampleIds (files.map Prod.fst) n).toFinset := by
      intro x hx
      rw [List.mem_toFinset] at hx
      rw [List.mem_toFinset]
      have hx2 := List.mem_filter.mp hx
      simpa using hx2.2
    calc ((files.map Prod.fst).filter
          (fun x => decide (x ∈ sampleIds (files.map Prod.fst) n))).length
        = ((files.map Prod.fst).filter
          (fun x => decide (x ∈ sampleIds (files.map Prod.fst) n))).toFinset.card :=
          (List.toFinset_card_of_nodup hLnodup).symm
      _ ≤ (sampleIds (files.map Prod.fst) n).toFinset.card := Finset.card_le_card hLsub
      _ ≤ (sampleIds (files.map Prod.fst) n).length := List.toFinset_card_le _
      _ = n := sampleIds_length _ n
  · intro hcontig m hm
    obtain ⟨hm1, hm2⟩ := sampleIds_mem_range (files.map Prod.fst) n hids hpos m hm
    have hmids : m ∈ files.map Prod.fst := hcontig m hm1 hm2
    obtain ⟨f, hf, hfm⟩ := List.mem_map.mp hmids
    rw [hmain]
    apply List.mem_map.mpr
    refine ⟨f, List.mem_filter.mpr ⟨hf, ?_⟩, hfm⟩
    rw [decide_eq_true_eq, hfm]
    exact hm

/-- Witness for C4 at a concrete input: ids 1, 2, 3 with n = 2. -/
theorem uniform_count_sampling_witness :
    (0 < 2 ∧ ([(1, "a"), (2, "b"), (3, "c")] : List (ℤ × String)) ≠ [] ∧
      (([(1, "a"), (2, "b"), (3, "c")] : List (ℤ × String)).map Prod.fst).Nodup ∧
      (∀ i ∈ ([(1, "a"), (2, "b"), (3, "c")] : List (ℤ × String)).map Prod.fst, 1 ≤ i)) ∧
    (((processVideo ((2 : ℕ) : ℤ) 1 0 8 (fun _ => (0 : ℕ)) (fun _ _ => 0)
          [(1, "a"), (2, "b"), (3, "c")]).frame_files
        = ([(1, "a"), (2, "b"), (3, "c")] : List (ℤ × String)).filter
          (fun f => decide (f.1 ∈ sampleIds
            (([(1, "a"), (2, "b"), (3, "c")] : List (ℤ × String)).map Prod.fst) 2))) ∧
      ((2 : ℕ) = 1 →
        (processVideo ((2 : ℕ) : ℤ) 1 0 8 (fun _ => (0 : ℕ)) (fun _ _ => 0)
            [(1, "a"), (2, "b"), (3, "c")]).frame_files.map Prod.fst
          = [minList (([(1, "a"), (2, "b"), (3, "c")] : List (ℤ × String)).map Prod.fst)]) ∧
      ((processVideo ((2 : ℕ) : ℤ) 1 0 8 (fun _ => (0 : ℕ)) (fun _ _ => 0)
          [(1, "a"), (2, "b"), (3, "c")]).frame_files.length ≤ 2) ∧
      ((∀ m : ℤ,
          minList (([(1, "a"), (2, "b"), (3, "c")] : List (ℤ × String)).map Prod.fst) ≤ m →
          m ≤ maxList (([(1, "a"), (2, "b"), (3, "c")] : List (ℤ × String)).map Prod.fst) →
          m ∈ ([(1, "a"), (2, "b"), (3, "c")] : List (ℤ × String)).map Prod.fst) →
        ∀ m ∈ sampleIds
            (([(1, "a"), (2, "b"), (3, "c")] : List (ℤ × String)).map Prod.fst) 2,
          m ∈ (processVideo ((2 : ℕ) : ℤ) 1 0 8 (fun _ => (0 : ℕ)) (fun _ _ => 0)
            [(1, "a"), (2, "b"), (3, "c")]).frame_files.map Prod.fst)) :=
  ⟨⟨by decide, by decide, by decide, by decide⟩,
    uniform_count_sampling (fun _ => (0 : ℕ)) (fun _ _ => 0) 8
      [(1, "a"), (2, "b"), (3, "c")] 2 (by decide) (by decide) (by decide) (by decide)⟩

/-! ### The Duplicate Filter scenario (claim C2) -/

theorem stepFrame_dup_case {H : Type} (nd : ℚ) (hnd : 0 < nd) (hashOf : String → H)
    (dist : H → H → ℕ) (dl : ℤ) (s_ids : List ℤ) (st : LoopState H) (f : ℤ × String) :
    stepFrame false s_ids 1 nd hashOf dist dl st f =
      if st.hashes.any (fun h2 => decide ((dist (hashOf f.2) h2 : ℤ) ≤ dl)) then
        { st with total_files := st.total_files + 1, duplicates := st.duplicates + 1 }
      else
        { st with total_files := st.total_files + 1,
                  hashes := st.hashes ++ [hashOf f.2],
                  frame_files := st.frame_files ++ [f] } := by
  rw [stepFrame]
  rw [if_neg (fun c => by simpa using c.1)]
  rw [if_neg (fun c => absurd c.2.1 (lt_irrefl 1))]
  rw [if_pos hnd, detect_duplicate]
  by_cases h : st.hashes.any fun h2 => decide ((dist (hashOf f.2) h2 : ℤ) ≤ dl)
  · rw [if_pos h, if_pos h]
  · rw [if_neg h, if_neg h]

theorem diff_limit_point_ninety_nine :
    roundQ ((1 - 99 / 100) * (8 : ℚ) ^ 2) = 1 :=
  roundQ_eval _ 1 (by norm_num) (by norm_num)

/-- Claim C2 (amended: the Duplicate Filter processes candidates in the
directory's enumeration order — the retained list is sorted by frame id
only after filtering — the rest of the claim holds when the enumeration
is ascending): for each candidate it computes a fingerprint, compares
it against every previously accepted fingerprint, discards the
candidate without adding its fingerprint if some distance is at most
round((1 - t) * s^2) (= 1 for t = 0.99, s = 8), and otherwise appends
its fingerprint; consequently, for frames 1..5 enumerated in ascending
order where frames 2 and 4 have the fingerprint of frame 1
(pixel-identical images) and frames 1, 3, 5 are pairwise farther apart
than the limit, it retains exactly frames {1, 3, 5} with duplicates = 2
and total_files = 5. -/
theorem duplicate_filter_scenario {H : Type} (hashOf : String → H) (dist : H → H → ℕ)
    (hself : ∀ h : H, dist h h = 0)
    (hf2 : hashOf "f2" = hashOf "f1") (hf4 : hashOf "f4" = hashOf "f1")
    (h31 : 1 < dist (hashOf "f3") (hashOf "f1"))
    (h51 : 1 < dist (hashOf "f5") (hashOf "f1"))
    (h53 : 1 < dist (hashOf "f5") (hashOf "f3")) :
    ((processVideo (-1) 1 (99 / 100) 8 hashOf dist
        [(1, "f1"), (2, "f2"), (3, "f3"), (4, "f4"), (5, "f5")]).frame_files.map Prod.fst
      = [1, 3, 5]) ∧
    (processVideo (-1) 1 (99 / 100) 8 hashOf dist
        [(1, "f1"), (2, "f2"), (3, "f3"), (4, "f4"), (5, "f5")]).duplicates = 2 ∧
    (processVideo (-1) 1 (99 / 100) 8 hashOf dist
        [(1, "f1"), (2, "f2"), (3, "f3"), (4, "f4"), (5, "f5")]).total_files = 5 := by
  have hnd : (0 : ℚ) < 99 / 100 := by norm_num
  have p11 : dist (hashOf "f1") (hashOf "f1") ≤ 1 := by
    rw [hself]
    norm_num
  have p31 : ¬dist (hashOf "f3") (hashOf "f1") ≤ 1 := not_le.mpr h31
  have p51 : ¬dist (hashOf "f5") (hashOf "f1") ≤ 1 := not_le.mpr h51
  have p53 : ¬dist (hashOf "f5") (hashOf "f3") ≤ 1 := not_le.mpr h53
  refine ⟨?_, ?_, ?_⟩ <;>
    simp [processVideo, frameLoop, diff_limit_point_ninety_nine,
      show decide ((0 : ℤ) < -1) = false from rfl,
      stepFrame_dup_case (99 / 100) hnd hashOf dist 1,
      hf2, hf4, p11, p31, p51, p53]

/-- Concrete fingerprints for the C2 witness and counterexample: frames
2 and 4 carry frame 1's fingerprint (pixel-identical images); frames
1, 3, 5 are pairwise far apart. -/
def exHash (s : String) : ℕ := if s = "f3" then 10 else if s = "f5" then 20 else 0

/-- Concrete fingerprint distance for the C2 witness and counterexample. -/
def exDist (a b : ℕ) : ℕ := max a b - min a b

/-- Witness for C2 at a concrete input. -/
theorem duplicate_filter_scenario_witness :
    ((∀ h : ℕ, exDist h h = 0) ∧ exHash "f2" = exHash "f1" ∧ exHash "f4" = exHash "f1" ∧
      1 < exDist (exHash "f3") (exHash "f1") ∧ 1 < exDist (exHash "f5") (exHash "f1") ∧
      1 < exDist (exHash "f5") (exHash "f3")) ∧
    (((processVideo (-1) 1 (99 / 100) 8 exHash exDist
        [(1, "f1"), (2, "f2"), (3, "f3"), (4, "f4"), (5, "f5")]).frame_files.map Prod.fst
      = [1, 3, 5]) ∧
    (processVideo (-1) 1 (99 / 100) 8 exHash exDist
        [(1, "f1"), (2, "f2"), (3, "f3"), (4, "f4"), (5, "f5")]).duplicates = 2 ∧
    (processVideo (-1) 1 (99 / 100) 8 exHash exDist
        [(1, "f1"), (2, "f2"), (3, "f3"), (4, "f4"), (5, "f5")]).total_files = 5) :=
  ⟨⟨fun h => by simp [exDist], by decide, by decide, by decide, by decide, by decide⟩,
    duplicate_filter_scenario exHash exDist (fun h => by simp [exDist]) (by decide)
      (by decide) (by decide) (by decide) (by decide)⟩

/-- Claim C2 counterexample: the Duplicate Filter runs over the
directory enumeration order, and the sort by frame id happens only
after filtering (vid2frame.py lines 217 and 233).  With the same five
frames and fingerprints as the scenario but enumeration order
2, 1, 3, 4, 5 — a legal `iterdir()` order — the filter keeps frame 2
and drops frame 1 as its duplicate, retaining {2, 3, 5} rather than
{1, 3, 5} as the claim asserts. -/
theorem duplicate_filter_enumeration_order :
    ((processVideo (-1) 1 (99 / 100) 8 exHash exDist
        [(2, "f2"), (1, "f1"), (3, "f3"), (4, "f4"), (5, "f5")]).frame_files.map Prod.fst
      = [2, 3, 5]) ∧
    ¬((sortFrames (processVideo (-1) 1 (99 / 100) 8 exHash exDist
        [(2, "f2"), (1, "f1"), (3, "f3"), (4, "f4"), (5, "f5")]).frame_files).map Prod.fst
      = [1, 3, 5]) := by
  have hnd : (0 : ℚ) < 99 / 100 := by norm_num
  have hmain : (processVideo (-1) 1 (99 / 100) 8 exHash exDist
      [(2, "f2"), (1, "f1"), (3, "f3"), (4, "f4"), (5, "f5")]).frame_files
      = [(2, "f2"), (3, "f3"), (5, "f5")] := by
    simp only [processVideo, frameLoop, Nat.cast_ofNat, diff_limit_point_ninety_nine,
      show decide ((0 : ℤ) < -1) = false from rfl, List.foldl_cons, List.foldl_nil,
      stepFrame_dup_case (99 / 100) hnd exHash exDist 1]
    decide
  constructor
  · rw [hmain]
    rfl
  · rw [hmain]
    decide

/-! ### The video loop and `done_videos` (claim C10) -/

/-- The video loop (vid2frame.py lines 159-238) with the per-video body
abstracted: `step vk` stands for lines 167-236 — frame extraction,
selection, duplicate filtering and `frame_db.put` — which the loop runs
unconditionally.  The `done_videos` check at lines 164-165 only prints
a "seen before, ignored." notice (counted here) and does not skip the
video; line 238 adds the key afterward. -/
def videoLoopGo {σ : Type} (step : String → σ → σ) :
    List String → List String → σ → ℕ → σ × ℕ
  | [], _, st, notices => (st, notices)
  | vk :: rest, done, st, notices =>
      videoLoopGo step rest (vk :: done) (step vk st)
        (if vk ∈ done then notices + 1 else notices)

/-- The full video loop, starting from the empty `done_videos` set
(vid2frame.py line 159). -/
def videoLoop {σ : Type} (step : String → σ → σ) (vids : List String) (st : σ) : σ × ℕ :=
  videoLoopGo step vids [] st 0

theorem videoLoopGo_fst {σ : Type} (step : String → σ → σ) :
    ∀ (vids done : List String) (st : σ) (notices : ℕ),
      (videoLoopGo step vids done st notices).1
        = vids.foldl (fun s vk => step vk s) st := by
  intro vids
  induction vids with
  | nil => intro done st notices; rfl
  | cons vk rest ih =>
      intro done st notices
      rw [videoLoopGo, List.foldl_cons, ih]

theorem countP_congr_here (l : List String) (p q : String → Bool)
    (h : ∀ a ∈ l, p a = q a) : l.countP p = l.countP q := by
  rw [List.countP_eq_length_filter, List.countP_eq_length_filter, List.filter_congr h]

theorem countP_not_mem_cons (l : List String) (vk : String) (done : List String)
    (hnd : l.Nodup) (hvk : vk ∈ l) (hdone : vk ∉ done) :
    l.countP (fun v => decide (¬v ∈ done))
      = l.countP (fun v => decide (¬v ∈ vk :: done)) + 1 := by
  induction l with
  | nil => cases hvk
  | cons x xs ih =>
      have hx : x ∉ xs := (List.nodup_cons.mp hnd).1
      have hxs : xs.Nodup := (List.nodup_cons.mp hnd).2
      rcases List.mem_cons.mp hvk with rfl | hvk2
      · rw [List.countP_cons_of_pos (fun v => decide (¬v ∈ done)) xs
          (decide_eq_true hdone)]
        rw [List.countP_cons_of_neg (fun v => decide (¬v ∈ vk :: done)) xs (by
          simp only [decide_eq_true_eq, Decidable.not_not]
          exact List.mem_cons_self vk done)]
        have hcong : xs.countP (fun v => decide (¬v ∈ done))
            = xs.countP (fun v => decide (¬v ∈ vk :: done)) :=
          countP_congr_here xs _ _ fun a ha => by
            have hax : a ≠ vk := fun he => hx (he ▸ ha)
            simp only [decide_eq_decide]
            constructor
            · intro h hmem
              rcases List.mem_cons.mp hmem with he | hmem2
              · exact hax he
              · exact h hmem2
            · intro h hmem
              exact h (List.mem_cons_of_mem vk hmem)
        rw [hcong]
      · have hxvk : x ≠ vk := fun he => hx (he ▸ hvk2)
        have hsame : (decide (¬x ∈ done) : Bool) = decide (¬x ∈ vk :: done) := by
          simp only [decide_eq_decide]
          constructor
          · intro h hmem
            rcases List.mem_cons.mp hmem with he | hmem2
            · exact hxvk he
            · exact h hmem2
          · intro h hmem
            exact h (List.mem_cons_of_mem vk hmem)
        rw [List.countP_cons, List.countP_cons, ih hxs hvk2, hsame]
        omega

theorem videoLoopGo_snd {σ : Type} (step : String → σ → σ) :
    ∀ (vids done : List String) (st : σ) (notices : ℕ),
      (videoLoopGo step vids done st notices).2
        = notices + (vids.length - vids.dedup.countP (fun v => decide (¬v ∈ done))) := by
  intro vids
  induction vids with
  | nil =>
      intro done st notices
      simp [videoLoopGo]
  | cons vk rest ih =>
      intro done st notices
      rw [videoLoopGo, ih]
      have hAle : rest.dedup.countP (fun v => decide (¬v ∈ vk :: done)) ≤ rest.length :=
        le_trans (List.countP_le_length _) rest.dedup_sublist.length_le
      have hBle : rest.dedup.countP (fun v => decide (¬v ∈ done)) ≤ rest.length :=
        le_trans (List.countP_le_length _) rest.dedup_sublist.length_le
      by_cases hd : vk ∈ done
      · rw [if_pos hd]
        have hcong : rest.dedup.countP (fun v => decide (¬v ∈ vk :: done))
            = rest.dedup.countP (fun v => decide (¬v ∈ done)) :=
          countP_congr_here _ _ _ fun a _ => by
            simp only [decide_eq_decide]
            constructor
            · intro h hmem
              exact h (List.mem_cons_of_mem vk hmem)
            · intro h hmem
              rcases List.mem_cons.mp hmem with rfl | hmem2
              · exact h hd
              · exact h hmem2
        by_cases hm : vk ∈ rest
        · rw [List.dedup_cons_of_mem hm, hcong, List.length_cons]
          omega
        · rw [List.dedup_cons_of_not_mem hm, hcong, List.length_cons,
            List.countP_cons_of_neg (fun v => decide (¬v ∈ done)) rest.dedup (by
              simp only [decide_eq_true_eq, Decidable.not_not]
              exact hd)]
          omega
      · rw [if_neg hd]
        by_cases hm : vk ∈ rest
        · rw [List.dedup_cons_of_mem hm, List.length_cons]
          have hsplit := countP_not_mem_cons rest.dedup vk done rest.nodup_dedup
            (List.mem_dedup.mpr hm) hd
          omega
        · rw [List.dedup_cons_of_not_mem hm, List.length_cons,
            List.countP_cons_of_pos (fun v => decide (¬v ∈ done)) rest.dedup
              (decide_eq_true hd)]
          have hcong : rest.dedup.countP (fun v => decide (¬v ∈ vk :: done))
              = rest.dedup.countP (fun v => decide (¬v ∈ done)) :=
            countP_congr_here _ _ _ fun a ha => by
              have hav : a ≠ vk := fun he => hm (List.mem_dedup.mp (he ▸ ha))
              simp only [decide_eq_decide]
              constructor
              · intro h hmem
                exact h (List.mem_cons_of_mem vk hmem)
              · intro h hmem
                rcases List.mem_cons.mp hmem with he | hmem2
                · exact hav he
                · exact h hmem2
          omega

/-- Claim C10: if the same video key occurs more than once in the run's
video sequence, the loop prints a "seen before, ignored." notice for
every later occurrence — their number is the sequence length minus the
number of distinct keys — but does not skip it: the per-video body
(selection, duplicate filtering, and the backend's put) is folded over
every occurrence, repeats included. -/
theorem repeated_video_key_notice_not_skipped {σ : Type} (step : String → σ → σ)
    (vids : List String) (st : σ) :
    (videoLoop step vids st).1 = vids.foldl (fun s vk => step vk s) st ∧
    (videoLoop step vids st).2 = vids.length - vids.dedup.length := by
  constructor
  · exact videoLoopGo_fst step vids [] st 0
  · rw [videoLoop, videoLoopGo_snd]
    have h : vids.dedup.countP (fun v => decide (¬v ∈ ([] : List String)))
        = vids.dedup.length :=
      List.countP_eq_length.mpr fun a _ => by simp
    rw [h]
    omega
